import Mathlib

/-!
Verification development for the project rename script
(src/rename_to_claude_code_ide.py).

The script is embedded shallowly:

* file contents are lists of characters (`List Char`);
* the thirteen literal pattern rules are global leftmost nonoverlapping
  substitutions (`replaceAllF`), which is the behaviour of re.sub on a
  pattern that only contains escaped literals;
* the one general rule, with source pattern group1 claude-code group2
  where group1 matches a whitespace character, the start of the content
  or a double quote and group2 matches a whitespace character, the end
  of the content or a double quote, gets a dedicated matcher
  (`genMatch`, `genSubF`) that follows the scanning and alternation
  order of the Python regex engine (positions left to right, at each
  position the group alternatives in source order, caret and dollar
  anchoring at whole content boundaries because MULTILINE is not set);
* the file system is a list of (relative path, content) pairs, a path
  being the list of its components; the walk order of os.walk is
  modelled by the list order;
* the change log is a list of `LogEntry` values, one constructor per
  distinct message produced through the log method of the script;
* exceptions cannot arise inside the pure model, except that the
  try/except of update_git_remote is modelled by an explicit boolean
  input saying whether the file system access raises.
-/

namespace Rename

/-- Characters of a string literal; pattern rules and file contents are
stated over lists of characters. -/
def chars (s : String) : List Char := s.data

/-- The single quote character, written by code point. -/
def sq : Char := Char.ofNat 39

/-- Global leftmost nonoverlapping substitution of a literal pattern:
the behaviour of re.sub for the thirteen literal rules of the script
and of the str.replace call in update_git_remote.  The fuel argument
bounds the recursion depth and is instantiated with the length of the
text, which always suffices because every step consumes at least one
character.  All patterns of the script are nonempty; on an empty
pattern the function returns the text unchanged. -/
def replaceAllF (pat rep : List Char) : Nat → List Char → List Char
  | 0, s => s
  | fuel + 1, s =>
    match pat, s with
    | _, [] => []
    | [], _ => s
    | _ :: _, c :: rest =>
      if pat.isPrefixOf (c :: rest) then
        rep ++ replaceAllF pat rep fuel ((c :: rest).drop pat.length)
      else
        c :: replaceAllF pat rep fuel rest

/-- re.sub with a literal pattern, fuel fixed to the text length. -/
def replaceAll (pat rep s : List Char) : List Char :=
  replaceAllF pat rep s.length s

/-- Number of leftmost nonoverlapping matches of a literal pattern:
the behaviour of len(re.findall(pattern, content)) for the literal
rules. -/
def countMatchesF (pat : List Char) : Nat → List Char → Nat
  | 0, _ => 0
  | fuel + 1, s =>
    match pat, s with
    | _, [] => 0
    | [], _ => 0
    | _ :: _, c :: rest =>
      if pat.isPrefixOf (c :: rest) then
        1 + countMatchesF pat fuel ((c :: rest).drop pat.length)
      else
        countMatchesF pat fuel rest

/-- Match count for a literal pattern, fuel fixed to the text length. -/
def countMatches (pat s : List Char) : Nat :=
  countMatchesF pat s.length s

/-- Whitespace in the sense of the regex class backslash-s, restricted
to the ASCII range; every rule pattern and every text in the repository
is ASCII, so the further Unicode whitespace characters accepted by
Python are irrelevant here. -/
def isSpaceChar (c : Char) : Bool :=
  c = ' ' || c = '\t' || c = '\n' || c = '\r' || c = '\x0b' || c = '\x0c'

/-- The bare identifier matched by the general rule. -/
def ccOld : List Char := chars "claude-code"

/-- The replacement identifier of the general rule. -/
def ccNew : List Char := chars "claude-code-ide"

/-- Second group of the general rule, tried at the position after the
identifier, alternatives in source order: a whitespace character, the
end of the content (the dollar anchor, which also matches just before
a final newline, a case subsumed by the whitespace alternative because
it is tried first), or a double quote.  Returns the matched group text
and the remaining text after the whole match. -/
def matchG2 : List Char → Option (List Char × List Char)
  | [] => some ([], [])
  | c :: r =>
    if isSpaceChar c then some ([c], r)
    else if c = '\n' && r.isEmpty then some ([], c :: r)
    else if c = '"' then some (['"'], r)
    else none

/-- After a candidate first group (text g1, rest r1): require the bare
identifier, then the second group.  On success returns the replacement
text for the whole match (group1, then the new identifier, then
group2, exactly the backreference template of the rule) and the rest
of the text after the match. -/
def genTail (g1 r1 : List Char) : Option (List Char × List Char) :=
  if ccOld.isPrefixOf r1 then
    match matchG2 (r1.drop ccOld.length) with
    | some (g2, rest) => some (g1 ++ ccNew ++ g2, rest)
    | none => none
  else none

/-- Attempt of the general rule at one scan position, the first group
alternatives in source order: a whitespace character, the caret anchor
(zero width, only at the very start of the content), or a double
quote. -/
def genMatch (atStart : Bool) (r : List Char) : Option (List Char × List Char) :=
  (match r with
   | c :: r1 => if isSpaceChar c then genTail [c] r1 else none
   | [] => none) <|>
  (if atStart then genTail [] r else none) <|>
  (match r with
   | c :: r1 => if c = '"' then genTail ['"'] r1 else none
   | [] => none)

/-- Scan of the general rule over the whole content, replacing every
nonoverlapping match from left to right, as re.sub does.  The fuel is
instantiated with the length of the text, which suffices because every
step consumes at least one character. -/
def genSubF : Nat → Bool → List Char → List Char
  | 0, _, s => s
  | fuel + 1, atStart, s =>
    match genMatch atStart s with
    | some (rep, rest) => rep ++ genSubF fuel false rest
    | none =>
      match s with
      | [] => []
      | c :: rest => c :: genSubF fuel false rest

/-- re.sub for the general rule. -/
def genSub (s : List Char) : List Char := genSubF s.length true s

/-- Match count of the general rule, the same scan as `genSubF`:
the behaviour of len(re.findall(pattern, content)). -/
def genCountF : Nat → Bool → List Char → Nat
  | 0, _, _ => 0
  | fuel + 1, atStart, s =>
    match genMatch atStart s with
    | some (_, rest) => 1 + genCountF fuel false rest
    | none =>
      match s with
      | [] => 0
      | _ :: rest => genCountF fuel false rest

/-- Match count of the general rule over a whole content. -/
def genCount (s : List Char) : Nat := genCountF s.length true s

/-- One pattern rule of the replacements list: either a literal
substitution or the final general rule. -/
inductive Rule where
  | lit (pat rep : List Char)
  | general
deriving DecidableEq

/-- Rule 1: claude-code.nvim to claude-code-ide.nvim. -/
def rule1 : Rule := Rule.lit (chars "claude-code.nvim") (chars "claude-code-ide.nvim")

/-- Rule 2: claude-code.txt to claude-code-ide.txt. -/
def rule2 : Rule := Rule.lit (chars "claude-code.txt") (chars "claude-code-ide.txt")

/-- Rule 3: claude-code.log to claude-code-ide.log. -/
def rule3 : Rule := Rule.lit (chars "claude-code.log") (chars "claude-code-ide.log")

/-- Rule 4: ianks/claude-code.nvim to ianks/claude-code-ide.nvim. -/
def rule4 : Rule := Rule.lit (chars "ianks/claude-code.nvim") (chars "ianks/claude-code-ide.nvim")

/-- Rule 5: the require call with double quotes and closing paren. -/
def rule5 : Rule := Rule.lit (chars "require(\"claude-code\")") (chars "require(\"claude-code-ide\")")

/-- Rule 6: the require call with double quote and a following dot. -/
def rule6 : Rule := Rule.lit (chars "require(\"claude-code.") (chars "require(\"claude-code-ide.")

/-- Rule 7: the require call with single quotes and closing paren. -/
def rule7 : Rule :=
  Rule.lit (chars "require(" ++ [sq] ++ chars "claude-code" ++ [sq, ')'])
    (chars "require(" ++ [sq] ++ chars "claude-code-ide" ++ [sq, ')'])

/-- Rule 8: the require call with single quote and a following dot. -/
def rule8 : Rule :=
  Rule.lit (chars "require(" ++ [sq] ++ chars "claude-code.")
    (chars "require(" ++ [sq] ++ chars "claude-code-ide.")

/-- Rule 9: the event prefix claude-code followed by a colon. -/
def rule9 : Rule := Rule.lit (chars "claude-code:") (chars "claude-code-ide:")

/-- Rule 10: the help tag star claude-code dash. -/
def rule10 : Rule := Rule.lit (chars "*claude-code-") (chars "*claude-code-ide-")

/-- Rule 11: the path segment slash claude-code slash. -/
def rule11 : Rule := Rule.lit (chars "/claude-code/") (chars "/claude-code-ide/")

/-- Rule 12: double quote claude-code slash. -/
def rule12 : Rule := Rule.lit (chars "\"claude-code/") (chars "\"claude-code-ide/")

/-- Rule 13: single quote claude-code slash. -/
def rule13 : Rule :=
  Rule.lit ([sq] ++ chars "claude-code/") ([sq] ++ chars "claude-code-ide/")

/-- Rule 14, the general catch-all rule. -/
def ruleGeneral : Rule := Rule.general

/-- The ordered replacements list of the script. -/
def replacements : List Rule :=
  [rule1, rule2, rule3, rule4, rule5, rule6, rule7, rule8,
   rule9, rule10, rule11, rule12, rule13, ruleGeneral]

/-- One application of a rule as a global substitution. -/
def applyRule : Rule → List Char → List Char
  | Rule.lit pat rep, s => replaceAll pat rep s
  | Rule.general, s => genSub s

/-- Match count of a rule on a content. -/
def countRule : Rule → List Char → Nat
  | Rule.lit pat _, s => countMatches pat s
  | Rule.general, s => genCount s

/-- The full ordered rewrite pipeline of replace_in_file: each rule is
applied globally, the output of one rule feeding the next. -/
def applyAllRules (s : List Char) : List Char :=
  replacements.foldl (fun c r => applyRule r c) s

end Rename

namespace Rename

/-- A path relative to the project root, as its list of components. -/
abbrev RelPath := List (List Char)

/-- The modelled file system: the files under the root in walk order,
each a pair of relative path and content. -/
abbrev FS := List (RelPath × List Char)

/-- One entry of the change log, one constructor per distinct message
format passed to the log method of the script. -/
inductive LogEntry where
  | step1
  | step2
  | step3
  | renaming (oldPath newPath : RelPath)
  | warnNotFound (oldPath : RelPath)
  | processingCount (n : Nat)
  | updatingFile (rel : RelPath)
  | ruleChange (r : Rule) (occurrences : Nat)
  | updatingGitRemote
  | gitWarn
deriving DecidableEq

/-- The loop body of replace_in_file over the rule list: apply each
rule in order; whenever a rule changed the content, record the rule
together with the match count taken on the content as it was
immediately before that substitution.  Returns the final content and
the recorded per rule changes. -/
def runRules : List Rule → List Char → List Char × List (Rule × Nat)
  | [], content => (content, [])
  | r :: rs, content =>
    let newContent := applyRule r content
    let pr := runRules rs newContent
    (pr.1, if newContent ≠ content then (r, countRule r content) :: pr.2 else pr.2)

/-- Declarative description of the recorded changes: the rules whose
global substitution altered the staged content, each with the match
count on the content just before that stage. -/
def changesDesc : List Rule → List Char → List (Rule × Nat)
  | [], _ => []
  | r :: rs, s =>
    (if applyRule r s ≠ s then [(r, countRule r s)] else []) ++ changesDesc rs (applyRule r s)

/-- The pure part of replace_in_file: given the relative path (for the
log messages) and the content read from the file, return the rewritten
content and the log entries.  The path is logged, followed by the per
rule entries, exactly when the final content differs from the
original. -/
def replace_in_file (rel : RelPath) (content : List Char) :
    List Char × List LogEntry :=
  let pr := runRules replacements content
  if pr.1 ≠ content then
    (pr.1, LogEntry.updatingFile rel :: pr.2.map (fun rc => LogEntry.ruleChange rc.1 rc.2))
  else
    (pr.1, [])

/-- The fixed set of extension-less special filenames. -/
def special_files : List (List Char) :=
  [chars "Justfile", chars "Makefile", chars "LICENSE", chars "CHANGELOG"]

/-- The fixed allow-list of text file extensions. -/
def text_extensions : List (List Char) :=
  [chars ".lua", chars ".md", chars ".txt", chars ".sh", chars ".nix",
   chars ".yaml", chars ".yml", chars ".json"]

/-- The suffix of a filename in the sense of pathlib: the part from
the last dot on, provided that dot is neither the first nor the last
character of the name; otherwise empty. -/
def pySuffix (name : List Char) : List Char :=
  if name.contains '.' then
    let after := (name.reverse.takeWhile (fun c => c ≠ '.')).reverse
    if 0 < name.length - after.length - 1 && after.length ≠ 0 then '.' :: after else []
  else []

/-- The filename of a relative path: its last component. -/
def fileName (p : RelPath) : List Char := p.getLastD []

/-- should_process_file: the name is one of the special files, or the
pathlib suffix is in the extension allow-list. -/
def should_process_file (p : RelPath) : Bool :=
  special_files.contains (fileName p) || text_extensions.contains (pySuffix (fileName p))

/-- A directory name pruned by the walk: hidden (leading dot) or one
of the fixed build or dependency directory names. -/
def skipDir (d : List Char) : Bool :=
  (match d with | [] => false | c :: _ => c = '.') ||
    [chars "node_modules", chars "build", chars "dist", chars "__pycache__"].contains d

/-- The walk reaches a file exactly when none of the directory
components of its path (all components but the last) is pruned. -/
def walkReaches (p : RelPath) : Bool :=
  p.dropLast.all (fun d => !skipDir d)

/-- The worklist collected by process_all_files before any content
mutation: the paths of the walked files that pass
should_process_file, in walk order. -/
def files_to_process (fs : FS) : List RelPath :=
  (fs.filter (fun f => walkReaches f.1 && should_process_file f.1)).map (fun f => f.1)

/-- Reading a file: the content of the first entry with the given
path. -/
def readFile (p : RelPath) : FS → Option (List Char)
  | [] => none
  | f :: fs => if f.1 = p then some f.2 else readFile p fs

/-- Writing a file: replace the content of the entries with the given
path. -/
def writeFile (p : RelPath) (c : List Char) (fs : FS) : FS :=
  fs.map (fun f => if f.1 = p then (p, c) else f)

/-- replace_in_file acting on the file system: read the file, rewrite
the content, and in apply mode write it back when it changed.  The
paths handed to it always name existing files, so the unreachable
missing-file case reads as a no-op. -/
def replaceInFileFS (dry : Bool) (p : RelPath) (fs : FS) : FS × List LogEntry :=
  match readFile p fs with
  | none => (fs, [])
  | some content =>
    let pr := replace_in_file p content
    if pr.1 ≠ content then
      ((if dry then fs else writeFile p pr.1 fs), pr.2)
    else
      (fs, pr.2)

/-- The processing loop of process_all_files over the collected
worklist. -/
def processFiles (dry : Bool) : List RelPath → FS → FS × List LogEntry
  | [], fs => (fs, [])
  | p :: ps, fs =>
    let pr := replaceInFileFS dry p fs
    let pr2 := processFiles dry ps pr.1
    (pr2.1, pr.2 ++ pr2.2)

/-- process_all_files: collect the worklist, log its size, then
process each file. -/
def process_all_files (dry : Bool) (fs : FS) : FS × List LogEntry :=
  let pr := processFiles dry (files_to_process fs) fs
  (pr.1, LogEntry.processingCount (files_to_process fs).length :: pr.2)

/-- Existence of a path under the root: some file has it as a prefix
of its component list (the path itself, or a directory above some
file). -/
def pathExists (q : RelPath) (fs : FS) : Bool :=
  fs.any (fun f => q.isPrefixOf f.1)

/-- Moving a path: every file below the old path is relocated below
the new path; shutil.move with an existing directory target does not
arise for the fixed rename rules of the script. -/
def movePath (o n p : RelPath) : RelPath :=
  if o.isPrefixOf p then n ++ p.drop o.length else p

/-- The whole file system after one move. -/
def moveAll (o n : RelPath) (fs : FS) : FS :=
  fs.map (fun f => (movePath o n f.1, f.2))

/-- rename_paths over a list of rename rules: log the move or a
warning for each rule in order; the move itself happens only in apply
mode (the parent directory creation of the script has no counterpart
in a file system modelled as a list of files). -/
def rename_paths (dry : Bool) : List (RelPath × RelPath) → FS → FS × List LogEntry
  | [], fs => (fs, [])
  | (o, n) :: rs, fs =>
    if pathExists o fs then
      let pr := rename_paths dry rs (if dry then fs else moveAll o n fs)
      (pr.1, LogEntry.renaming o n :: pr.2)
    else
      let pr := rename_paths dry rs fs
      (pr.1, LogEntry.warnNotFound o :: pr.2)

/-- The fixed ordered path rename rules of the script. -/
def path_renames : List (RelPath × RelPath) :=
  [([chars "lua", chars "claude-code"], [chars "lua", chars "claude-code-ide"]),
   ([chars "doc", chars "claude-code.txt"], [chars "doc", chars "claude-code-ide.txt"]),
   ([chars "plugin", chars "claude-code.lua"], [chars "plugin", chars "claude-code-ide.lua"])]

/-- The relative path of the local git configuration file. -/
def gitConfigPath : RelPath := [chars ".git", chars "config"]

/-- The old project identifier looked for in the git configuration. -/
def ccNvim : List Char := chars "claude-code.nvim"

/-- The new project identifier written into the git configuration. -/
def ccIdeNvim : List Char := chars "claude-code-ide.nvim"

/-- Substring test, the behaviour of the Python in operator on
strings. -/
def containsSub (pat : List Char) : List Char → Bool
  | [] => pat.isEmpty
  | c :: rest => pat.isPrefixOf (c :: rest) || containsSub pat rest

/-- update_git_remote: if the file system access raises, log the
warning and continue; otherwise, if the configuration file exists and
its content contains the old identifier, log the action and in apply
mode write back the content with the one literal str.replace
substitution applied. -/
def update_git_remote (dry raises : Bool) (fs : FS) : FS × List LogEntry :=
  if raises then
    (fs, [LogEntry.gitWarn])
  else
    match readFile gitConfigPath fs with
    | none => (fs, [])
    | some content =>
      if containsSub ccNvim content then
        ((if dry then fs else writeFile gitConfigPath (replaceAll ccNvim ccIdeNvim content) fs),
         [LogEntry.updatingGitRemote])
      else
        (fs, [])

/-- The run method: rename paths, rewrite contents, patch the git
remote, concatenating the change log in order with the three step
headers. -/
def run (dry raises : Bool) (fs : FS) : FS × List LogEntry :=
  let r1 := rename_paths dry path_renames fs
  let r2 := process_all_files dry r1.1
  let r3 := update_git_remote dry raises r2.1
  (r3.1, LogEntry.step1 :: r1.2 ++ LogEntry.step2 :: r2.2 ++ LogEntry.step3 :: r3.2)

/-- A change log entry that reports a pending or performed content
change (a file rewrite, a rule application, or the git remote patch),
as opposed to the structural and warning messages. -/
def isDetection : LogEntry → Bool
  | LogEntry.updatingFile _ => true
  | LogEntry.ruleChange _ _ => true
  | LogEntry.updatingGitRemote => true
  | _ => false

/-- No rule of the replacements list finds a match in the content. -/
def noMatches (s : List Char) : Bool :=
  replacements.all (fun r => countRule r s == 0)

/-- The git configuration, if present, does not contain the old
identifier. -/
def gitClean (fs : FS) : Bool :=
  match readFile gitConfigPath fs with
  | none => true
  | some content => !containsSub ccNvim content

/-- No walked eligible file of the file system has a pending rule
match, and the git configuration is clean: the condition under which
a preview run detects nothing. -/
def noPending (fs : FS) : Bool :=
  (fs.all (fun f =>
    !(walkReaches f.1 && should_process_file f.1) || noMatches f.2)) && gitClean fs

end Rename

namespace Rename

theorem isPrefixOf_eq_true {a b : List Char} : a.isPrefixOf b = true ↔ a <+: b :=
  List.isPrefixOf_iff_prefix

theorem infix_iff_drop {T l : List Char} : T <:+: l ↔ ∃ i, T <+: l.drop i := by
  constructor
  · rintro ⟨u, v, rfl⟩
    refine ⟨u.length, ?_⟩
    rw [List.append_assoc, List.drop_left]
    exact List.prefix_append T v
  · rintro ⟨i, h⟩
    exact h.isInfix.trans (List.drop_suffix i l).isInfix

theorem infix_cons_cases {T : List Char} {c : Char} {X : List Char} (h : T <:+: c :: X) :
    T <+: c :: X ∨ T <:+: X := by
  rcases infix_iff_drop.mp h with ⟨i, hi⟩
  cases i with
  | zero => exact Or.inl hi
  | succ j => exact Or.inr (infix_iff_drop.mpr ⟨j, hi⟩)

theorem prefix_append_left {p a b : List Char} (h : p <+: a ++ b) (hl : p.length ≤ a.length) :
    p <+: a := by
  have h1 : p = (a ++ b).take p.length := List.prefix_iff_eq_take.mp h
  rw [List.take_append_eq_append_take] at h1
  have h2 : b.take (p.length - a.length) = [] := by
    have h3 : p.length - a.length = 0 := by omega
    simp [h3]
  rw [h2, List.append_nil] at h1
  rw [h1]
  exact List.take_prefix _ _

theorem prefix_append_split {p a b : List Char} (h : p <+: a ++ b) (hl : a.length ≤ p.length) :
    a <+: p ∧ p.drop a.length <+: b := by
  have ha : a <+: p := List.prefix_of_prefix_length_le (List.prefix_append a b) h hl
  obtain ⟨t, ht⟩ := ha
  obtain ⟨u, hu⟩ := h
  subst ht
  refine ⟨⟨t, rfl⟩, ?_⟩
  rw [List.drop_left]
  rw [List.append_assoc] at hu
  exact ⟨u, List.append_cancel_left hu⟩

theorem replaceAllF_of_count_eq_zero (pat rep : List Char) :
    ∀ fuel s, countMatchesF pat fuel s = 0 → replaceAllF pat rep fuel s = s := by
  intro fuel
  induction fuel with
  | zero => intro s _; rfl
  | succ n ih =>
    intro s h
    cases pat with
    | nil =>
      cases s with
      | nil => rfl
      | cons c rest => rfl
    | cons p ps =>
      cases s with
      | nil => rfl
      | cons c rest =>
        by_cases hp : (p :: ps).isPrefixOf (c :: rest) = true
        · exfalso
          simp only [countMatchesF, hp, if_true] at h
          omega
        · simp only [countMatchesF, hp, if_false, Bool.false_eq_true] at h
          simp only [replaceAllF, hp, if_false, Bool.false_eq_true]
          rw [ih rest h]

theorem genSubF_of_count_eq_zero :
    ∀ fuel b s, genCountF fuel b s = 0 → genSubF fuel b s = s := by
  intro fuel
  induction fuel with
  | zero => intro b s _; rfl
  | succ n ih =>
    intro b s h
    cases hm : genMatch b s with
    | some v =>
      exfalso
      simp only [genCountF, hm] at h
      omega
    | none =>
      cases s with
      | nil => simp [genSubF, hm]
      | cons c rest =>
        simp only [genCountF, hm] at h
        simp only [genSubF, hm]
        rw [ih false rest h]

theorem infix_of_countMatchesF_ne_zero (pat : List Char) :
    ∀ fuel s, countMatchesF pat fuel s ≠ 0 → pat <:+: s := by
  intro fuel
  induction fuel with
  | zero => intro s h; exact absurd rfl h
  | succ n ih =>
    intro s h
    cases pat with
    | nil =>
      exfalso
      cases s with
      | nil => exact h rfl
      | cons c rest => exact h rfl
    | cons p ps =>
      cases s with
      | nil => exact absurd rfl h
      | cons c rest =>
        by_cases hp : (p :: ps).isPrefixOf (c :: rest) = true
        · exact (isPrefixOf_eq_true.mp hp).isInfix
        · simp only [countMatchesF, hp, if_false, Bool.false_eq_true] at h
          exact List.infix_cons (ih rest h)

end Rename

namespace Rename

/-- Core lemma for the literal rules: a target string T cannot be
created by a global literal substitution of P by R.  The side
conditions say that T does not occur in R, that no nonempty proper
prefix of T ends R, that no nonempty proper suffix of T starts R and
that R is not shorter than T by two or more; the last hypothesis says
either that P is T itself (so the substitution removes every
occurrence) or that the input contained no occurrence of T.  The
second conjunct is the strengthening that makes the induction go
through: a proper suffix of T can start the output only if it started
the input. -/
theorem no_reintroduce (T P R : List Char)
    (hT : T ≠ []) (hP : P ≠ [])
    (c2 : ¬ T <:+: R)
    (c3 : ∀ k, k < T.length → 0 < k → ¬ (T.take k <:+ R))
    (c4 : ∀ k, k < T.length → 0 < k → ¬ (T.drop k <+: R))
    (c5 : T.length ≤ R.length + 1) :
    ∀ fuel s, s.length ≤ fuel → (P = T ∨ ¬ T <:+: s) →
      ¬ T <:+: replaceAllF P R fuel s ∧
      (∀ k, k < T.length → 0 < k → T.drop k <+: replaceAllF P R fuel s → T.drop k <+: s) := by
  obtain ⟨p, ps, rfl⟩ : ∃ p ps, P = p :: ps := by
    cases P with
    | nil => exact absurd rfl hP
    | cons a b => exact ⟨a, b, rfl⟩
  intro fuel
  induction fuel with
  | zero =>
    intro s hs _
    cases s with
    | nil =>
      refine ⟨fun h => hT (List.eq_nil_of_infix_nil h), fun k _ _ h => h⟩
    | cons c rest => simp at hs
  | succ n ih =>
    intro s hs hin
    cases s with
    | nil =>
      refine ⟨fun h => hT (List.eq_nil_of_infix_nil h), fun k _ _ h => h⟩
    | cons c rest =>
      by_cases hpre : (p :: ps).isPrefixOf (c :: rest) = true
      · have hunf : replaceAllF (p :: ps) R (n + 1) (c :: rest) =
            R ++ replaceAllF (p :: ps) R n ((c :: rest).drop (p :: ps).length) := by
          simp only [replaceAllF, hpre, if_true]
        have hlen' : ((c :: rest).drop (p :: ps).length).length ≤ n := by
          rw [List.length_drop]
          simp only [List.length_cons] at hs ⊢
          omega
        have hin' : (p :: ps) = T ∨ ¬ T <:+: ((c :: rest).drop (p :: ps).length) := by
          rcases hin with h | h
          · exact Or.inl h
          · exact Or.inr (fun hc => h (hc.trans (List.drop_suffix _ _).isInfix))
        obtain ⟨ih1, ih2⟩ := ih ((c :: rest).drop (p :: ps).length) hlen' hin'
        rw [hunf]
        constructor
        · intro hinf
          rcases infix_iff_drop.mp hinf with ⟨i, hdropi⟩
          by_cases hiR : R.length ≤ i
          · apply ih1
            apply infix_iff_drop.mpr
            refine ⟨i - R.length, ?_⟩
            have heq : (R ++ replaceAllF (p :: ps) R n ((c :: rest).drop (p :: ps).length)).drop i =
                (replaceAllF (p :: ps) R n ((c :: rest).drop (p :: ps).length)).drop (i - R.length) := by
              rw [List.drop_append_eq_append_drop]
              have hR0 : R.drop i = [] := by
                rw [List.drop_eq_nil_iff]
                omega
              rw [hR0, List.nil_append]
            rwa [heq] at hdropi
          · push_neg at hiR
            have hsplit : (R ++ replaceAllF (p :: ps) R n ((c :: rest).drop (p :: ps).length)).drop i =
                R.drop i ++ replaceAllF (p :: ps) R n ((c :: rest).drop (p :: ps).length) := by
              rw [List.drop_append_eq_append_drop]
              have h0 : i - R.length = 0 := by omega
              rw [h0, List.drop_zero]
            rw [hsplit] at hdropi
            by_cases hTR : T.length ≤ R.length - i
            · have h1 : T <+: R.drop i := by
                apply prefix_append_left hdropi
                rw [List.length_drop]
                omega
              exact c2 (h1.isInfix.trans (List.drop_suffix i R).isInfix)
            · push_neg at hTR
              have hlenRi : (R.drop i).length ≤ T.length := by
                rw [List.length_drop]
                omega
              obtain ⟨hRiT, _⟩ := prefix_append_split hdropi hlenRi
              have hk : R.drop i = T.take (R.length - i) := by
                have h5 := List.prefix_iff_eq_take.mp hRiT
                rw [List.length_drop] at h5
                exact h5
              refine c3 (R.length - i) (by omega) (by omega) ?_
              rw [← hk]
              exact List.drop_suffix i R
        · intro k hk hk0 hpref
          exfalso
          apply c4 k hk hk0
          apply prefix_append_left hpref
          rw [List.length_drop]
          omega
      · have hunf : replaceAllF (p :: ps) R (n + 1) (c :: rest) =
            c :: replaceAllF (p :: ps) R n rest := by
          simp only [replaceAllF, hpre]
          rfl
        have hin'' : (p :: ps) = T ∨ ¬ T <:+: rest := by
          rcases hin with h | h
          · exact Or.inl h
          · exact Or.inr (fun hc => h (List.infix_cons hc))
        obtain ⟨ih1, ih2⟩ := ih rest (by simp only [List.length_cons] at hs; omega) hin''
        have hTnotpre : ¬ T <+: c :: rest := by
          rcases hin with h | h
          · rw [← h]
            intro hc
            exact hpre (isPrefixOf_eq_true.mpr hc)
          · exact fun hc => h hc.isInfix
        rw [hunf]
        constructor
        · intro hinf
          rcases infix_cons_cases hinf with hpre2 | hin2
          · cases hTc : T with
            | nil => exact hT hTc
            | cons t0 T1 =>
              rw [hTc] at hpre2
              obtain ⟨ht0, hT1⟩ := List.cons_prefix_cons.mp hpre2
              by_cases h1 : 1 < T.length
              · have hT1' : T.drop 1 <+: replaceAllF (p :: ps) R n rest := by
                  rw [hTc]
                  exact hT1
                have h6 := ih2 1 h1 (by omega) hT1'
                apply hTnotpre
                rw [hTc]
                refine List.cons_prefix_cons.mpr ⟨ht0, ?_⟩
                rw [hTc] at h6
                exact h6
              · have hT1nil : T1 = [] := by
                  have h7 : T.length = T1.length + 1 := by rw [hTc]; rfl
                  have h8 : T1.length = 0 := by omega
                  cases T1 with
                  | nil => rfl
                  | cons a b => simp at h8
                subst hT1nil
                apply hTnotpre
                rw [hTc]
                exact List.cons_prefix_cons.mpr ⟨ht0, List.nil_prefix⟩
          · exact ih1 hin2
        · intro k hk hk0 hpref
          cases hd : T.drop k with
          | nil =>
            exfalso
            have h9 : (T.drop k).length = T.length - k := List.length_drop k T
            rw [hd] at h9
            simp only [List.length_nil] at h9
            omega
          | cons d0 d1 =>
            rw [hd] at hpref
            obtain ⟨hd0, hd1⟩ := List.cons_prefix_cons.mp hpref
            have hd1eq : T.drop (k + 1) = d1 := by
              have h10 : (T.drop k).drop 1 = T.drop (k + 1) := List.drop_drop 1 k T
              rw [← h10, hd]
              rfl
            by_cases hk1 : k + 1 < T.length
            · have h11 := ih2 (k + 1) hk1 (by omega) (by rw [hd1eq]; exact hd1)
              rw [hd1eq] at h11
              exact List.cons_prefix_cons.mpr ⟨hd0, h11⟩
            · have h12 : (T.drop k).length = T.length - k := List.length_drop k T
              rw [hd] at h12
              simp only [List.length_cons] at h12
              have hd1nil : d1 = [] := by
                have h13 : d1.length = 0 := by omega
                cases d1 with
                | nil => rfl
                | cons a b => simp at h13
              subst hd1nil
              exact List.cons_prefix_cons.mpr ⟨hd0, List.nil_prefix⟩

end Rename

namespace Rename

theorem countMatches_eq_zero_of_not_infix {pat s : List Char} (h : ¬ pat <:+: s) :
    countMatches pat s = 0 := by
  by_contra hc
  exact h (infix_of_countMatchesF_ne_zero pat s.length s hc)

theorem replaceAll_id_of_count_zero {pat rep s : List Char} (h : countMatches pat s = 0) :
    replaceAll pat rep s = s :=
  replaceAllF_of_count_eq_zero pat rep s.length s h

theorem genSub_id_of_count_zero {s : List Char} (h : genCount s = 0) : genSub s = s :=
  genSubF_of_count_eq_zero s.length true s h

theorem applyRule_id_of_count_zero {r : Rule} {s : List Char} (h : countRule r s = 0) :
    applyRule r s = s := by
  cases r with
  | lit pat rep => exact replaceAll_id_of_count_zero h
  | general => exact genSub_id_of_count_zero h

theorem not_ccNvim_after_rule1 (s : List Char) : ¬ ccNvim <:+: applyRule rule1 s :=
  (no_reintroduce ccNvim ccNvim ccIdeNvim
    (by decide) (by decide) (by decide) (by decide) (by decide) (by decide)
    s.length s (Nat.le_refl _) (Or.inl rfl)).1

theorem not_ccNvim_kept_rule2 {s : List Char} (h : ¬ ccNvim <:+: s) :
    ¬ ccNvim <:+: applyRule rule2 s :=
  (no_reintroduce ccNvim (chars "claude-code.txt") (chars "claude-code-ide.txt")
    (by decide) (by decide) (by decide) (by decide) (by decide) (by decide)
    s.length s (Nat.le_refl _) (Or.inr h)).1

theorem not_ccNvim_kept_rule3 {s : List Char} (h : ¬ ccNvim <:+: s) :
    ¬ ccNvim <:+: applyRule rule3 s :=
  (no_reintroduce ccNvim (chars "claude-code.log") (chars "claude-code-ide.log")
    (by decide) (by decide) (by decide) (by decide) (by decide) (by decide)
    s.length s (Nat.le_refl _) (Or.inr h)).1

theorem not_ccNvim_stage3 (s : List Char) :
    ¬ ccNvim <:+: applyRule rule3 (applyRule rule2 (applyRule rule1 s)) :=
  not_ccNvim_kept_rule3 (not_ccNvim_kept_rule2 (not_ccNvim_after_rule1 s))

/-- Claim C10: after the first rule has run (and through the second and
third, which cannot reintroduce the identifier), the content at the
stage where the fourth rule runs contains no occurrence of
claude-code.nvim, so the fourth rule finds zero matches and its
substitution leaves the content unchanged: it never contributes in the
pipeline. -/
theorem c10_rule4_never_matches (s : List Char) :
    countRule rule4 (applyRule rule3 (applyRule rule2 (applyRule rule1 s))) = 0 ∧
    applyRule rule4 (applyRule rule3 (applyRule rule2 (applyRule rule1 s))) =
      applyRule rule3 (applyRule rule2 (applyRule rule1 s)) := by
  have hc : countRule rule4 (applyRule rule3 (applyRule rule2 (applyRule rule1 s))) = 0 := by
    apply countMatches_eq_zero_of_not_infix
    intro hinf
    exact not_ccNvim_stage3 s
      ((by decide : ccNvim <:+: chars "ianks/claude-code.nvim").trans hinf)
  exact ⟨hc, applyRule_id_of_count_zero hc⟩

end Rename

namespace Rename

theorem foldl_rules_id (s : List Char) :
    ∀ rs : List Rule, (∀ r ∈ rs, countRule r s = 0) →
      rs.foldl (fun c r => applyRule r c) s = s := by
  intro rs
  induction rs with
  | nil => intro _; rfl
  | cons r rs ih =>
    intro h
    have h1 : applyRule r s = s := applyRule_id_of_count_zero (h r (by simp))
    simp only [List.foldl_cons, h1]
    exact ih (fun r hr => h r (by simp [hr]))

theorem all_rules_id {s : List Char} (h : noMatches s = true) : applyAllRules s = s := by
  have h' : ∀ r ∈ replacements, countRule r s = 0 := by
    intro r hr
    exact beq_iff_eq.mp (List.all_eq_true.mp h r hr)
  exact foldl_rules_id s replacements h'

/-- Claim C1, counterexample: on a content holding two bare occurrences
of the identifier separated by one space, the first application of the
full rule sequence replaces only the first occurrence (the catch-all
rule consumes the separating space), so a second application performs
a further substitution: the rewrite step is not idempotent on every
input. -/
theorem c1_counterexample :
    applyAllRules (applyAllRules (chars "claude-code claude-code")) ≠
      applyAllRules (chars "claude-code claude-code") := by decide

/-- Claim C1, amended: the second pass over the output of the first one
performs zero additional substitutions whenever no rule of the ordered
sequence still finds a match in that output; this holds for most texts
but not for all, as the counterexample with two whitespace-separated
bare occurrences shows. -/
theorem c1_second_pass_id_of_no_matches (s : List Char)
    (h : noMatches (applyAllRules s) = true) :
    applyAllRules (applyAllRules s) = applyAllRules s :=
  all_rules_id h

theorem c1_second_pass_id_witness :
    noMatches (applyAllRules (chars "hello require(\"claude-code\") world")) = true ∧
    applyAllRules (applyAllRules (chars "hello require(\"claude-code\") world")) =
      applyAllRules (chars "hello require(\"claude-code\") world") :=
  ⟨by decide, c1_second_pass_id_of_no_matches (chars "hello require(\"claude-code\") world")
    (by decide)⟩

/-- Claim C9: on a content holding two bare occurrences of the
identifier separated by exactly one whitespace character, a single
application of the full ordered rule sequence replaces only the first
occurrence, because the match of the general rule consumes the
separating whitespace, leaving the second occurrence without a leading
delimiter in the same nonoverlapping pass. -/
theorem c9_adjacent_bare_occurrences :
    applyAllRules (chars "claude-code claude-code") =
      chars "claude-code-ide claude-code" := by decide

end Rename

namespace Rename

theorem rename_dry_fs : ∀ (rs : List (RelPath × RelPath)) (fs : FS),
    (rename_paths true rs fs).1 = fs := by
  intro rs
  induction rs with
  | nil => intro fs; rfl
  | cons r rs ih =>
    intro fs
    obtain ⟨o, n⟩ := r
    by_cases h : pathExists o fs = true
    · simp [rename_paths, h, ih fs]
    · simp [rename_paths, h, ih fs]

theorem rename_no_exists (dry : Bool) : ∀ (rs : List (RelPath × RelPath)) (fs : FS),
    (∀ r ∈ rs, pathExists r.1 fs = false) →
    rename_paths dry rs fs = (fs, rs.map (fun r => LogEntry.warnNotFound r.1)) := by
  intro rs
  induction rs with
  | nil => intro fs _; rfl
  | cons r rs ih =>
    intro fs h
    obtain ⟨o, n⟩ := r
    have h0 : pathExists o fs = false := h (o, n) (by simp)
    have h1 : ∀ r ∈ rs, pathExists r.1 fs = false := fun r hr => h r (by simp [hr])
    simp [rename_paths, h0, ih fs h1]

theorem isPrefixOf_movePath {q o n : RelPath} (p : RelPath)
    (ho : o ≠ []) (hn : n ≠ []) (h1 : q.head? ≠ o.head?) (h2 : q.head? ≠ n.head?) :
    q.isPrefixOf (movePath o n p) = q.isPrefixOf p := by
  unfold movePath
  by_cases hop : o.isPrefixOf p = true
  · rw [if_pos hop]
    cases q with
    | nil => simp [List.isPrefixOf]
    | cons qh qt =>
      cases n with
      | nil => exact absurd rfl hn
      | cons nh nt =>
        cases o with
        | nil => exact absurd rfl ho
        | cons oh ot =>
          cases p with
          | nil => simp [List.isPrefixOf] at hop
          | cons ph pt =>
            have hohph : oh = ph := by
              simp only [List.isPrefixOf, Bool.and_eq_true, beq_iff_eq] at hop
              exact hop.1
            have hqh_nh : (qh == nh) = false := by
              apply beq_eq_false_iff_ne.mpr
              intro hc
              exact h2 (by simp [hc])
            have hqh_ph : (qh == ph) = false := by
              apply beq_eq_false_iff_ne.mpr
              intro hc
              apply h1
              simp [hc, hohph]
            show (qh :: qt).isPrefixOf (nh :: (nt ++ (ph :: pt).drop (oh :: ot).length)) =
              (qh :: qt).isPrefixOf (ph :: pt)
            simp [List.isPrefixOf, hqh_nh, hqh_ph]
  · rw [if_neg hop]

theorem pathExists_moveAll {q o n : RelPath}
    (ho : o ≠ []) (hn : n ≠ []) (h1 : q.head? ≠ o.head?) (h2 : q.head? ≠ n.head?) :
    ∀ fs : FS, pathExists q (moveAll o n fs) = pathExists q fs := by
  intro fs
  induction fs with
  | nil => rfl
  | cons f fs ih =>
    simp only [pathExists, moveAll, List.map_cons, List.any_cons] at *
    rw [isPrefixOf_movePath f.1 ho hn h1 h2, ih]

theorem readFile_write_ne {q p : RelPath} (hne : q ≠ p) (c : List Char) :
    ∀ fs : FS, readFile q (writeFile p c fs) = readFile q fs := by
  intro fs
  induction fs with
  | nil => rfl
  | cons f fs ih =>
    simp only [writeFile, List.map_cons] at ih ⊢
    by_cases h : f.1 = p
    · have h1 : ¬ ((p, c).1 = q) := fun hc => hne hc.symm
      have h2 : ¬ (f.1 = q) := by rw [h]; exact fun hc => hne hc.symm
      rw [if_pos h]
      simp only [readFile, if_neg h1, if_neg h2]
      exact ih
    · rw [if_neg h]
      simp only [readFile]
      rw [ih]

theorem readFile_mem {p : RelPath} {c : List Char} :
    ∀ {fs : FS}, readFile p fs = some c → (p, c) ∈ fs := by
  intro fs
  induction fs with
  | nil => intro h; exact absurd h (by simp [readFile])
  | cons f fs ih =>
    intro h
    by_cases hf : f.1 = p
    · simp only [readFile, hf] at h
      rw [if_pos trivial] at h
      have hc : c = f.2 := by
        injection h with h
        exact h.symm
      subst hc
      rw [← hf, Prod.mk.eta]
      exact List.mem_cons_self f fs
    · simp only [readFile, hf] at h
      rw [if_neg not_false] at h
      exact List.mem_cons_of_mem f (ih h)

theorem replaceInFileFS_dry_fs (p : RelPath) (fs : FS) :
    (replaceInFileFS true p fs).1 = fs := by
  unfold replaceInFileFS
  cases readFile p fs with
  | none => rfl
  | some content =>
    by_cases h : (replace_in_file p content).1 ≠ content
    · simp [h]
    · simp [h]

theorem replaceInFileFS_logs (dry : Bool) (p : RelPath) (fs : FS) :
    (replaceInFileFS dry p fs).2 =
      (match readFile p fs with
       | none => []
       | some c => (replace_in_file p c).2) := by
  unfold replaceInFileFS
  cases readFile p fs with
  | none => rfl
  | some content =>
    by_cases h : (replace_in_file p content).1 ≠ content
    · simp [h]
    · simp [h]

theorem replaceInFileFS_readFile_ne {q p : RelPath} (hne : q ≠ p) (dry : Bool) (fs : FS) :
    readFile q (replaceInFileFS dry p fs).1 = readFile q fs := by
  unfold replaceInFileFS
  cases readFile p fs with
  | none => rfl
  | some content =>
    by_cases h : (replace_in_file p content).1 ≠ content
    · cases dry with
      | true => simp [h]
      | false => simp [h, readFile_write_ne hne]
    · simp [h]

theorem processFiles_dry_fs : ∀ (ps : List RelPath) (fs : FS),
    (processFiles true ps fs).1 = fs := by
  intro ps
  induction ps with
  | nil => intro fs; rfl
  | cons p ps ih =>
    intro fs
    simp only [processFiles]
    rw [ih, replaceInFileFS_dry_fs]

theorem processFiles_readFile {dry : Bool} {q : RelPath} : ∀ (ps : List RelPath) (fs : FS),
    q ∉ ps → readFile q (processFiles dry ps fs).1 = readFile q fs := by
  intro ps
  induction ps with
  | nil => intro fs _; rfl
  | cons p ps ih =>
    intro fs h
    have hqp : q ≠ p := fun hc => h (by simp [hc])
    have hqs : q ∉ ps := fun hc => h (by simp [hc])
    simp only [processFiles]
    rw [ih _ hqs, replaceInFileFS_readFile_ne hqp]

theorem mem_writeFile_ne {f : RelPath × List Char} {p : RelPath} {c : List Char}
    (h : f.1 ≠ p) : ∀ {fs : FS}, f ∈ fs → f ∈ writeFile p c fs := by
  intro fs hmem
  have := List.mem_map_of_mem (fun g => if g.1 = p then (p, c) else g) hmem
  simpa [writeFile, h] using this

theorem replaceInFileFS_fst (dry : Bool) (p : RelPath) (fs : FS) :
    (replaceInFileFS dry p fs).1 =
      (match readFile p fs with
       | none => fs
       | some content =>
         if (replace_in_file p content).1 ≠ content ∧ dry = false
         then writeFile p (replace_in_file p content).1 fs else fs) := by
  unfold replaceInFileFS
  cases readFile p fs with
  | none => rfl
  | some content =>
    by_cases h : (replace_in_file p content).1 ≠ content
    · cases dry with
      | true => simp [h]
      | false => simp [h]
    · simp [h]

theorem mem_replaceInFileFS {f : RelPath × List Char} {p : RelPath} (hfp : f.1 ≠ p)
    (dry : Bool) (fs : FS) (hmem : f ∈ fs) : f ∈ (replaceInFileFS dry p fs).1 := by
  rw [replaceInFileFS_fst]
  cases readFile p fs with
  | none => exact hmem
  | some content =>
    dsimp only
    by_cases h : (replace_in_file p content).1 ≠ content ∧ dry = false
    · rw [if_pos h]
      exact mem_writeFile_ne hfp hmem
    · rw [if_neg h]
      exact hmem

theorem processFiles_keep {f : RelPath × List Char} (dry : Bool) :
    ∀ (ps : List RelPath) (fs : FS), f ∈ fs → f.1 ∉ ps → f ∈ (processFiles dry ps fs).1 := by
  intro ps
  induction ps with
  | nil => intro fs h _; exact h
  | cons p ps ih =>
    intro fs hmem h
    have hfp : f.1 ≠ p := fun hc => h (by simp [hc])
    have hfs : f.1 ∉ ps := fun hc => h (by simp [hc])
    simp only [processFiles]
    exact ih _ (mem_replaceInFileFS hfp dry fs hmem) hfs

theorem processFiles_logs_mode : ∀ (ps : List RelPath), ps.Nodup →
    ∀ (fsA fsB : FS), (∀ q ∈ ps, readFile q fsA = readFile q fsB) →
    (processFiles true ps fsA).2 = (processFiles false ps fsB).2 := by
  intro ps
  induction ps with
  | nil => intro _ fsA fsB _; rfl
  | cons p ps ih =>
    intro hnd fsA fsB hread
    have hp : readFile p fsA = readFile p fsB := hread p (by simp)
    have hpn : p ∉ ps := (List.nodup_cons.mp hnd).1
    have hnd' : ps.Nodup := (List.nodup_cons.mp hnd).2
    simp only [processFiles]
    have hlog1 : (replaceInFileFS true p fsA).2 = (replaceInFileFS false p fsB).2 := by
      rw [replaceInFileFS_logs, replaceInFileFS_logs, hp]
    rw [hlog1]
    congr 1
    rw [replaceInFileFS_dry_fs]
    apply ih hnd'
    intro q hq
    have hqp : q ≠ p := fun hc => hpn (hc ▸ hq)
    rw [replaceInFileFS_readFile_ne hqp, ← hread q (by simp [hq])]

theorem processFiles_preview_logs_empty : ∀ (ps : List RelPath) (fs : FS),
    (∀ p ∈ ps, ∀ c, readFile p fs = some c → (replace_in_file p c).2 = []) →
    (processFiles true ps fs).2 = [] := by
  intro ps
  induction ps with
  | nil => intro fs _; rfl
  | cons p ps ih =>
    intro fs h
    simp only [processFiles]
    rw [List.append_eq_nil]
    constructor
    · rw [replaceInFileFS_logs]
      cases hr : readFile p fs with
      | none => rfl
      | some c => exact h p (by simp) c hr
    · rw [replaceInFileFS_dry_fs]
      exact ih fs (fun q hq c hc => h q (by simp [hq]) c hc)

theorem mem_files_to_process {p : RelPath} {fs : FS} :
    p ∈ files_to_process fs ↔
      ∃ c, (p, c) ∈ fs ∧ (walkReaches p && should_process_file p) = true := by
  simp only [files_to_process, List.mem_map, List.mem_filter]
  constructor
  · rintro ⟨f, ⟨hf, hcond⟩, rfl⟩
    exact ⟨f.2, by simpa using hf, hcond⟩
  · rintro ⟨c, hmem, hcond⟩
    exact ⟨(p, c), ⟨hmem, hcond⟩, rfl⟩

end Rename

namespace Rename

theorem process_all_files_dry_fs (fs : FS) : (process_all_files true fs).1 = fs := by
  simp only [process_all_files]
  exact processFiles_dry_fs _ _

theorem update_git_remote_dry_fs (raises : Bool) (fs : FS) :
    (update_git_remote true raises fs).1 = fs := by
  unfold update_git_remote
  cases raises with
  | true => rfl
  | false =>
    simp only [Bool.false_eq_true, if_false]
    cases readFile gitConfigPath fs with
    | none => rfl
    | some c =>
      by_cases h : containsSub ccNvim c = true
      · simp [h]
      · simp [h]

/-- Claim C3: a preview run (dry mode) leaves the file system
untouched: every path and every content is exactly what it was, no
move and no write happens. -/
theorem c3_preview_fs_unchanged (raises : Bool) (fs : FS) : (run true raises fs).1 = fs := by
  simp only [run]
  rw [update_git_remote_dry_fs, process_all_files_dry_fs, rename_dry_fs]

theorem rename_logs_dry : ∀ (rs : List (RelPath × RelPath)) (fs : FS),
    (rename_paths true rs fs).2 = rs.map (fun r =>
      if pathExists r.1 fs = true then LogEntry.renaming r.1 r.2
      else LogEntry.warnNotFound r.1) := by
  intro rs
  induction rs with
  | nil => intro fs; rfl
  | cons r rs ih =>
    intro fs
    obtain ⟨o, n⟩ := r
    by_cases h : pathExists o fs = true
    · simp [rename_paths, h, ih fs]
    · simp [rename_paths, h, ih fs]

theorem rename_logs_apply (fs : FS) :
    (rename_paths false path_renames fs).2 = path_renames.map (fun r =>
      if pathExists r.1 fs = true then LogEntry.renaming r.1 r.2
      else LogEntry.warnNotFound r.1) := by
  have e2 := pathExists_moveAll (q := [chars "doc", chars "claude-code.txt"])
    (o := [chars "lua", chars "claude-code"]) (n := [chars "lua", chars "claude-code-ide"])
    (by decide) (by decide) (by decide) (by decide)
  have e31 := pathExists_moveAll (q := [chars "plugin", chars "claude-code.lua"])
    (o := [chars "lua", chars "claude-code"]) (n := [chars "lua", chars "claude-code-ide"])
    (by decide) (by decide) (by decide) (by decide)
  have e32 := pathExists_moveAll (q := [chars "plugin", chars "claude-code.lua"])
    (o := [chars "doc", chars "claude-code.txt"]) (n := [chars "doc", chars "claude-code-ide.txt"])
    (by decide) (by decide) (by decide) (by decide)
  by_cases h1 : pathExists [chars "lua", chars "claude-code"] fs = true <;>
  by_cases h2 : pathExists [chars "doc", chars "claude-code.txt"] fs = true <;>
  by_cases h3 : pathExists [chars "plugin", chars "claude-code.lua"] fs = true <;>
  simp [path_renames, rename_paths, h1, h2, h3, e2, e31, e32]

/-- Claim C7: the path rename step produces exactly one log entry per
rename rule, in order: a renaming entry when the old path exists under
the root and a warning entry when it does not, so a missing source
path never aborts the step; and in preview mode no move is performed
(the file system is returned unchanged). -/
theorem c7_rename_paths_logging (dry : Bool) (fs : FS) :
    (rename_paths dry path_renames fs).2 = path_renames.map (fun r =>
      if pathExists r.1 fs = true then LogEntry.renaming r.1 r.2
      else LogEntry.warnNotFound r.1) ∧
    (rename_paths true path_renames fs).1 = fs := by
  refine ⟨?_, rename_dry_fs path_renames fs⟩
  cases dry with
  | true => exact rename_logs_dry path_renames fs
  | false => exact rename_logs_apply fs

/-- Claim C8: the git remote patch logs a warning and keeps going when
the file system access raises; it does nothing when the configuration
file is missing or does not contain the old identifier; and when the
identifier occurs it logs the action and performs the one literal
substring replacement, writing the file back in apply mode only. -/
theorem c8_update_git_remote (dry : Bool) (fs : FS) (c : List Char) :
    (update_git_remote dry true fs = (fs, [LogEntry.gitWarn])) ∧
    (readFile gitConfigPath fs = none → update_git_remote dry false fs = (fs, [])) ∧
    (readFile gitConfigPath fs = some c → containsSub ccNvim c = true →
      update_git_remote dry false fs =
        ((if dry then fs else writeFile gitConfigPath (replaceAll ccNvim ccIdeNvim c) fs),
         [LogEntry.updatingGitRemote])) ∧
    (readFile gitConfigPath fs = some c → containsSub ccNvim c = false →
      update_git_remote dry false fs = (fs, [])) := by
  refine ⟨rfl, ?_, ?_, ?_⟩
  · intro h
    simp [update_git_remote, h]
  · intro h hc
    simp [update_git_remote, h, hc]
  · intro h hc
    simp [update_git_remote, h, hc]

theorem c8_update_git_remote_witness :
    readFile gitConfigPath [(gitConfigPath, chars "url = a/claude-code.nvim.git")] =
      some (chars "url = a/claude-code.nvim.git") ∧
    containsSub ccNvim (chars "url = a/claude-code.nvim.git") = true ∧
    update_git_remote false false [(gitConfigPath, chars "url = a/claude-code.nvim.git")] =
      (writeFile gitConfigPath (replaceAll ccNvim ccIdeNvim (chars "url = a/claude-code.nvim.git"))
        [(gitConfigPath, chars "url = a/claude-code.nvim.git")],
       [LogEntry.updatingGitRemote]) := by
  refine ⟨by decide, by decide, ?_⟩
  have h := (c8_update_git_remote false
    [(gitConfigPath, chars "url = a/claude-code.nvim.git")]
    (chars "url = a/claude-code.nvim.git")).2.2.1 (by decide) (by decide)
  simpa using h

end Rename

namespace Rename

/-- Claim C5: among the files the walk reaches, the content rewrite
opens exactly those whose name is a special filename or whose suffix
is in the extension allow-list; a file failing the policy is never in
the worklist and survives the whole content processing step unchanged,
in either mode. -/
theorem c5_selection_policy (dry : Bool) (fs : FS) (f : RelPath × List Char) (hmem : f ∈ fs) :
    (walkReaches f.1 = true →
      (f.1 ∈ files_to_process fs ↔ should_process_file f.1 = true)) ∧
    (should_process_file f.1 = false →
      f.1 ∉ files_to_process fs ∧ f ∈ (process_all_files dry fs).1) := by
  constructor
  · intro hw
    constructor
    · intro hp
      rcases mem_files_to_process.mp hp with ⟨c, _, hcond⟩
      exact (Bool.and_eq_true _ _).mp hcond |>.2
    · intro hs
      refine mem_files_to_process.mpr ⟨f.2, ?_, by simp [hw, hs]⟩
      rw [Prod.mk.eta]
      exact hmem
  · intro hs
    have hnp : f.1 ∉ files_to_process fs := by
      intro hp
      rcases mem_files_to_process.mp hp with ⟨c, _, hcond⟩
      rw [Bool.and_eq_true] at hcond
      rw [hcond.2] at hs
      exact absurd hs (by simp)
    refine ⟨hnp, ?_⟩
    simp only [process_all_files]
    exact processFiles_keep dry _ fs hmem hnp

theorem c5_selection_policy_witness :
    (([chars "logo.png"], chars "claude-code") ∈
      ([([chars "logo.png"], chars "claude-code")] : FS)) ∧
    should_process_file [chars "logo.png"] = false ∧
    ([chars "logo.png"] ∉ files_to_process [([chars "logo.png"], chars "claude-code")] ∧
     ([chars "logo.png"], chars "claude-code") ∈
       (process_all_files false [([chars "logo.png"], chars "claude-code")]).1) :=
  ⟨by decide, by decide,
    (c5_selection_policy false [([chars "logo.png"], chars "claude-code")]
      ([chars "logo.png"], chars "claude-code") (by decide)).2 (by decide)⟩

theorem runRules_spec : ∀ (rs : List Rule) (s : List Char),
    runRules rs s = (rs.foldl (fun c r => applyRule r c) s, changesDesc rs s) := by
  intro rs
  induction rs with
  | nil => intro s; rfl
  | cons r rs ih =>
    intro s
    by_cases h : applyRule r s ≠ s
    · simp only [runRules, List.foldl_cons, changesDesc, ih, if_pos h, List.singleton_append]
    · simp only [runRules, List.foldl_cons, changesDesc, ih, if_neg h, List.nil_append]

theorem replace_in_file_logs (rel : RelPath) (content : List Char) :
    (replace_in_file rel content).2 =
      (if applyAllRules content ≠ content then
        LogEntry.updatingFile rel ::
          (changesDesc replacements content).map (fun rc => LogEntry.ruleChange rc.1 rc.2)
      else []) := by
  have hs := runRules_spec replacements content
  by_cases h : applyAllRules content ≠ content
  · rw [if_pos h]
    unfold replace_in_file
    rw [hs]
    dsimp only
    rw [if_pos (show replacements.foldl (fun c r => applyRule r c) content ≠ content from h)]
  · rw [if_neg h]
    unfold replace_in_file
    rw [hs]
    dsimp only
    rw [if_neg (show ¬ replacements.foldl (fun c r => applyRule r c) content ≠ content from h)]

/-- Claim C6: the rewrite of one file logs the relative path exactly
when the final content after all rules differs from the original; and
in that case the log is the path entry followed by one entry per rule
whose substitution changed the staged content, carrying the match
count taken on the content immediately before that substitution. -/
theorem c6_replace_in_file_logging (rel : RelPath) (content : List Char) :
    (LogEntry.updatingFile rel ∈ (replace_in_file rel content).2 ↔
      applyAllRules content ≠ content) ∧
    (applyAllRules content ≠ content →
      (replace_in_file rel content).2 =
        LogEntry.updatingFile rel ::
          (changesDesc replacements content).map (fun rc => LogEntry.ruleChange rc.1 rc.2)) := by
  constructor
  · rw [replace_in_file_logs]
    by_cases h : applyAllRules content ≠ content
    · simp [h]
    · simp [h]
  · intro h
    rw [replace_in_file_logs, if_pos h]

theorem c6_replace_in_file_logging_witness :
    applyAllRules (chars "claude-code.nvim") ≠ chars "claude-code.nvim" ∧
    (replace_in_file [chars "README.md"] (chars "claude-code.nvim")).2 =
      LogEntry.updatingFile [chars "README.md"] ::
        (changesDesc replacements (chars "claude-code.nvim")).map
          (fun rc => LogEntry.ruleChange rc.1 rc.2) :=
  ⟨by decide,
    (c6_replace_in_file_logging [chars "README.md"] (chars "claude-code.nvim")).2 (by decide)⟩

end Rename

namespace Rename

theorem update_git_logs_eq (dry1 dry2 raises : Bool) {fsA fsB : FS}
    (h : readFile gitConfigPath fsA = readFile gitConfigPath fsB) :
    (update_git_remote dry1 raises fsA).2 = (update_git_remote dry2 raises fsB).2 := by
  unfold update_git_remote
  cases raises with
  | true => rfl
  | false =>
    simp only [Bool.false_eq_true, if_false]
    rw [h]
    cases readFile gitConfigPath fsB with
    | none => rfl
    | some c =>
      dsimp only
      by_cases hc : containsSub ccNvim c = true
      · simp [hc]
      · simp [hc]

/-- Claim C2, counterexample: with a file living under the directory
that the first path rename rule moves, the apply run walks the tree
after the move and logs the rewritten file under its new location,
while the preview run logs the original location: the two change logs
differ in content. -/
theorem c2_counterexample :
    (run true false
      [([chars "lua", chars "claude-code", chars "init.lua"], chars "claude-code.nvim")]).2 ≠
    (run false false
      [([chars "lua", chars "claude-code", chars "init.lua"], chars "claude-code.nvim")]).2 := by
  decide

/-- Claim C2, amended: when no path rename rule applies (none of the
three old paths exists in the initial state) and the file paths are
pairwise distinct, a preview run and an apply run append exactly the
same change log; in general the two logs can differ, but only in the
file paths logged by the content rewrite step, which reflect the
post-rename locations in apply mode. -/
theorem c2_preview_apply_same_logs (raises : Bool) (fs : FS)
    (hnd : (fs.map (fun f => f.1)).Nodup)
    (hre : ∀ r ∈ path_renames, pathExists r.1 fs = false) :
    (run true raises fs).2 = (run false raises fs).2 := by
  have hren1 := rename_no_exists true path_renames fs hre
  have hren2 := rename_no_exists false path_renames fs hre
  simp only [run, hren1, hren2]
  have hftp : (files_to_process fs).Nodup := by
    have hsub : List.Sublist (files_to_process fs) (fs.map (fun f => f.1)) := by
      unfold files_to_process
      exact (List.filter_sublist fs).map (fun f => f.1)
    exact hsub.nodup hnd
  have hproc : (process_all_files true fs).2 = (process_all_files false fs).2 := by
    simp only [process_all_files]
    congr 1
    exact processFiles_logs_mode (files_to_process fs) hftp fs fs (fun q _ => rfl)
  have hgfs : readFile gitConfigPath (processFiles false (files_to_process fs) fs).1 =
      readFile gitConfigPath fs := by
    apply processFiles_readFile
    intro hmemftp
    rcases mem_files_to_process.mp hmemftp with ⟨c, _, hcond⟩
    rw [Bool.and_eq_true] at hcond
    exact absurd hcond.1 (by decide)
  have hgit : (update_git_remote true raises (process_all_files true fs).1).2 =
      (update_git_remote false raises (process_all_files false fs).1).2 := by
    apply update_git_logs_eq
    rw [process_all_files_dry_fs]
    simp only [process_all_files]
    exact hgfs.symm
  rw [hproc, hgit]

theorem c2_preview_apply_same_logs_witness :
    ((([([chars "a.md"], chars "claude-code.nvim")] : FS).map (fun f => f.1)).Nodup) ∧
    (∀ r ∈ path_renames,
      pathExists r.1 [([chars "a.md"], chars "claude-code.nvim")] = false) ∧
    (run true false [([chars "a.md"], chars "claude-code.nvim")]).2 =
      (run false false [([chars "a.md"], chars "claude-code.nvim")]).2 :=
  ⟨by decide, by decide,
    c2_preview_apply_same_logs false [([chars "a.md"], chars "claude-code.nvim")]
      (by decide) (by decide)⟩

theorem rename_no_detection : ∀ (dry : Bool) (rs : List (RelPath × RelPath)) (fs : FS),
    ((rename_paths dry rs fs).2).filter isDetection = [] := by
  intro dry rs
  induction rs with
  | nil => intro fs; rfl
  | cons r rs ih =>
    intro fs
    obtain ⟨o, n⟩ := r
    by_cases h : pathExists o fs = true
    · simp [rename_paths, h, ih, isDetection]
    · simp [rename_paths, h, ih, isDetection]

/-- Claim C4, counterexample: an apply run over a file holding two
bare occurrences of the identifier separated by one space leaves a
content that the catch-all rule still matches, so a subsequent preview
run over the resulting state reports a pending change: an apply run
does not always leave a state with nothing left to detect. -/
theorem c4_counterexample :
    ((run true false
        (run false false [([chars "a.md"], chars "claude-code claude-code")]).1).2).filter
      isDetection ≠ [] := by
  decide

/-- Claim C4, amended: a preview run reports no pending content change
exactly under the condition that no rule matches the content of any
walked eligible file and the git configuration does not contain the
old identifier; the state an apply run leaves behind satisfies this on
most inputs but not on all of them, as the counterexample shows. -/
theorem c4_preview_detects_nothing (raises : Bool) (fs : FS) (h : noPending fs = true) :
    ((run true raises fs).2).filter isDetection = [] := by
  rw [noPending, Bool.and_eq_true] at h
  obtain ⟨hfiles, hgit⟩ := h
  simp only [run]
  rw [rename_dry_fs, process_all_files_dry_fs]
  have hpr : ((process_all_files true fs).2).filter isDetection = [] := by
    simp only [process_all_files]
    have hempty : (processFiles true (files_to_process fs) fs).2 = [] := by
      apply processFiles_preview_logs_empty
      intro p hp c hr
      rcases mem_files_to_process.mp hp with ⟨c0, _, hcond⟩
      have hmem := readFile_mem hr
      have hall := List.all_eq_true.mp hfiles (p, c) hmem
      rcases (Bool.or_eq_true _ _).mp hall with hno | hnm
      · rw [Bool.not_eq_true'] at hno
        rw [hno] at hcond
        exact absurd hcond (by simp)
      · rw [replace_in_file_logs, if_neg (not_not_intro (all_rules_id hnm))]
    rw [hempty]
    rfl
  have hgt : ((update_git_remote true raises fs).2).filter isDetection = [] := by
    unfold update_git_remote
    cases raises with
    | true => rfl
    | false =>
      simp only [Bool.false_eq_true, if_false]
      rw [gitClean] at hgit
      cases hr : readFile gitConfigPath fs with
      | none => rfl
      | some c =>
        rw [hr] at hgit
        dsimp only at hgit ⊢
        rw [Bool.not_eq_true'] at hgit
        simp [hgit]
  simp [List.filter_append, isDetection, hpr, hgt, rename_no_detection]

theorem c4_preview_detects_nothing_witness :
    noPending [([chars "a.md"], chars "hello")] = true ∧
    ((run true false [([chars "a.md"], chars "hello")]).2).filter isDetection = [] :=
  ⟨by decide, c4_preview_detects_nothing false [([chars "a.md"], chars "hello")] (by decide)⟩

end Rename
